import Mathlib

/-!
Shallow embedding of the dependency-ordered task scheduler from
`hacker_news_data_pipeline.ipynb`: the `DAG` class (adjacency mapping,
`in_degrees`, Kahn's `sort`, `add` with its post-insertion check) and the
`Pipeline` class (`task` registration and `run`).

Python dicts are insertion-ordered; they are modelled as association lists
(`List (Node × α)`) where lookup reads the first matching key, value update
rewrites the first matching entry in place, and fresh keys are appended at
the end — exactly the observable behaviour of `dict` operations used by the
source.  Nodes (the unit-of-work objects used as dict keys) are modelled as
opaque naturals.  Exceptions are modelled with `Except`.
-/

abbrev Node := Nat

/-- Python `d[n]` / `n in d` read access on a dict: first entry with the key. -/
def alookup {α : Type} : List (Node × α) → Node → Option α
  | [], _ => none
  | (k, v) :: rest, n => if k = n then some v else alookup rest n

/-- Python `d[n] = f(d[n])` on an existing key: the entry is updated in place
(dict update keeps insertion order); a missing key is left untouched (the
source never updates a missing key). -/
def aupdate {α : Type} : List (Node × α) → Node → (α → α) → List (Node × α)
  | [], _, _ => []
  | (k, v) :: rest, n, f =>
      if k = n then (k, f v) :: rest else (k, v) :: aupdate rest n f

/-- The keys of a dict, in insertion order. -/
def akeys {α : Type} (l : List (Node × α)) : List Node := l.map Prod.fst

abbrev Graph := List (Node × List Node)
abbrev Degrees := List (Node × Int)

/-- `self.graph[node]` where the node is known to be a key; absent keys give
`[]` (a `KeyError` in Python, unreachable on graphs built by `DAG.add`). -/
def succsOf (g : Graph) (n : Node) : List Node := (alookup g n).getD []

section AssocLemmas

variable {α : Type}

@[simp] theorem alookup_nil (n : Node) : alookup ([] : List (Node × α)) n = none := rfl

theorem alookup_cons (k : Node) (v : α) (rest : List (Node × α)) (n : Node) :
    alookup ((k, v) :: rest) n = if k = n then some v else alookup rest n := rfl

theorem alookup_append (l₁ l₂ : List (Node × α)) (n : Node) :
    alookup (l₁ ++ l₂) n =
      match alookup l₁ n with
      | some v => some v
      | none => alookup l₂ n := by
  induction l₁ with
  | nil => simp
  | cons p rest ih =>
      obtain ⟨k, v⟩ := p
      by_cases h : k = n <;> simp [alookup_cons, h, ih]

theorem alookup_isSome_iff_mem (l : List (Node × α)) (n : Node) :
    (alookup l n).isSome ↔ n ∈ akeys l := by
  induction l with
  | nil => simp [akeys]
  | cons p rest ih =>
      obtain ⟨k, v⟩ := p
      by_cases h : k = n <;> simp [alookup_cons, h, akeys, ih] <;> tauto

theorem alookup_eq_none_iff (l : List (Node × α)) (n : Node) :
    alookup l n = none ↔ n ∉ akeys l := by
  rw [← alookup_isSome_iff_mem, Option.isSome_iff_ne_none]
  tauto

theorem mem_keys_of_alookup_eq_some {l : List (Node × α)} {n : Node} {v : α}
    (h : alookup l n = some v) : n ∈ akeys l := by
  rw [← alookup_isSome_iff_mem, h]; rfl

theorem alookup_eq_some_iff_mem {l : List (Node × α)} (hnd : (akeys l).Nodup)
    (n : Node) (v : α) : alookup l n = some v ↔ (n, v) ∈ l := by
  induction l with
  | nil => simp
  | cons p rest ih =>
      obtain ⟨k, w⟩ := p
      simp only [akeys, List.map_cons, List.nodup_cons] at hnd
      by_cases h : k = n
      · subst h
        rw [alookup_cons, if_pos rfl]
        simp only [List.mem_cons, Option.some.injEq, Prod.mk.injEq]
        constructor
        · rintro rfl; exact Or.inl ⟨by simp, rfl⟩
        · rintro (⟨-, rfl⟩ | h)
          · rfl
          · exact absurd (List.mem_map_of_mem Prod.fst h) hnd.1
      · rw [alookup_cons, if_neg h]
        simp only [List.mem_cons]
        rw [ih hnd.2]
        constructor
        · exact fun hm => Or.inr hm
        · rintro (heq | hm)
          · cases heq; exact absurd rfl h
          · exact hm

theorem akeys_aupdate (l : List (Node × α)) (n : Node) (f : α → α) :
    akeys (aupdate l n f) = akeys l := by
  induction l with
  | nil => rfl
  | cons p rest ih =>
      obtain ⟨k, v⟩ := p
      by_cases h : k = n <;>
        simp only [aupdate, if_pos, if_neg, h, akeys, List.map_cons] <;>
        simp only [akeys] at ih <;> simp [ih]

theorem alookup_aupdate_self (l : List (Node × α)) (n : Node) (f : α → α) :
    alookup (aupdate l n f) n = (alookup l n).map f := by
  induction l with
  | nil => rfl
  | cons p rest ih =>
      obtain ⟨k, v⟩ := p
      by_cases h : k = n
      · subst h
        rw [aupdate, if_pos rfl, alookup_cons, if_pos rfl, alookup_cons, if_pos rfl]
        rfl
      · rw [aupdate, if_neg h, alookup_cons, if_neg h, alookup_cons, if_neg h, ih]

theorem alookup_aupdate_of_ne (l : List (Node × α)) {n m : Node} (h : m ≠ n)
    (f : α → α) : alookup (aupdate l n f) m = alookup l m := by
  induction l with
  | nil => rfl
  | cons p rest ih =>
      obtain ⟨k, v⟩ := p
      by_cases hk : k = n
      · subst hk
        have hkm : ¬ k = m := fun hh => h (hh ▸ rfl)
        rw [aupdate, if_pos rfl, alookup_cons, if_neg hkm, alookup_cons, if_neg hkm]
      · rw [aupdate, if_neg hk, alookup_cons, alookup_cons, ih]

theorem aupdate_of_alookup_none {l : List (Node × α)} {n : Node}
    (h : alookup l n = none) (f : α → α) : aupdate l n f = l := by
  induction l with
  | nil => rfl
  | cons p rest ih =>
      obtain ⟨k, v⟩ := p
      by_cases hk : k = n
      · simp [alookup_cons, hk] at h
      · simp only [alookup_cons, if_neg hk] at h
        simp [aupdate, hk, ih h]

theorem akeys_append (l₁ l₂ : List (Node × α)) :
    akeys (l₁ ++ l₂) = akeys l₁ ++ akeys l₂ := by
  simp [akeys]

end AssocLemmas

/-! ## The `DAG` class -/

/-- One iteration of the inner loop of `in_degrees` over a successor list:
`if pointer not in self.degrees: self.degrees[pointer] = 1
 else: self.degrees[pointer] += 1`. -/
def bumpDeg (ds : Degrees) (pointer : Node) : Degrees :=
  match alookup ds pointer with
  | none => ds ++ [(pointer, 1)]
  | some _ => aupdate ds pointer (fun v => v + 1)

/-- `DAG.in_degrees`: builds the degree dict by iterating the graph dict; a
node key missing from the dict is entered with degree 0, then every successor
occurrence bumps its target. -/
def degStep (ds : Degrees) (kv : Node × List Node) : Degrees :=
  kv.2.foldl bumpDeg
    (if (alookup ds kv.1).isSome then ds else ds ++ [(kv.1, (0 : Int))])

def DAG.in_degrees (g : Graph) : Degrees := g.foldl degStep []

/-- `self.degrees[pointer] -= 1` (a missing key would be a Python `KeyError`;
here it leaves the dict unchanged — unreachable on graphs built by `DAG.add`). -/
def decDeg (ds : Degrees) (pointer : Node) : Degrees :=
  aupdate ds pointer (fun v => v - 1)

/-- Body of `sort`'s inner `for pointer in self.graph[node_i]` loop: decrement
each successor's degree and enqueue it (at the back of the deque) as soon as
its degree reaches zero. -/
def succStep (acc : Degrees × List Node) (pointer : Node) : Degrees × List Node :=
  (decDeg acc.1 pointer,
   if alookup (decDeg acc.1 pointer) pointer = some 0
   then acc.2 ++ [pointer] else acc.2)

def processSuccs (ds : Degrees) (d : List Node) (succs : List Node) :
    Degrees × List Node :=
  succs.foldl succStep (ds, d)

/-- The initial deque: every node whose in-degree is zero, in dict order. -/
def seedQueue (ds : Degrees) : List Node :=
  (ds.filter (fun p => decide (p.2 = 0))).map Prod.fst

/-- Total positive degree mass; it bounds how many loop iterations remain. -/
def posSum (ds : Degrees) : Nat := (ds.map (fun p => p.2.toNat)).sum

/-- The `while d:` loop of `sort`, with explicit fuel (the loop measure
`|deque| + posSum` strictly decreases each iteration, so the fuel chosen in
`sortImpl` is never exhausted).  Returns the final degree dict (the loop
mutates `self.degrees`) together with the `searched` output list. -/
def sortLoopF (g : Graph) : Nat → Degrees → List Node → List Node → Degrees × List Node
  | 0, ds, _, searched => (ds, searched)
  | _ + 1, ds, [], searched => (ds, searched)
  | fuel + 1, ds, node_i :: rest, searched =>
      let pr := processSuccs ds rest (succsOf g node_i)
      sortLoopF g fuel pr.1 pr.2 (searched ++ [node_i])

/-- `DAG.sort` including its effect on `self.degrees`: recompute `in_degrees`,
seed the deque with zero-degree nodes, then run Kahn's loop. -/
def sortImpl (g : Graph) : Degrees × List Node :=
  let ds := DAG.in_degrees g
  let d := seedQueue ds
  sortLoopF g (d.length + posSum ds) ds d []

/-- The value returned by `DAG.sort`. -/
def DAG.sort (g : Graph) : List Node := (sortImpl g).2

/-- `if not n in self.graph: self.graph[n] = []`. -/
def addKey (g : Graph) (n : Node) : Graph :=
  if (alookup g n).isSome then g else g ++ [(n, [])]

/-- `DAG.add(node, to)`: ensure `node` is a key; if `to` is given, ensure `to`
is a key and append `to` to `node`'s successor list; finally
`if len(self.sort()) > len(self.graph): raise Exception` — note the source
compares with `>`, exactly as written.  (`if to:` tests Python truthiness; the
source only ever passes function objects, which are truthy, so an absent
argument is modelled as `none`.) -/
def addGraph (g : Graph) (node : Node) (to' : Option Node) : Graph :=
  match to' with
  | none => addKey g node
  | some t => aupdate (addKey (addKey g node) t) node (fun succs => succs ++ [t])

def DAG.add (g : Graph) (node : Node) (to' : Option Node) : Except Unit Graph :=
  if (addGraph g node to').length < (DAG.sort (addGraph g node to')).length
  then Except.error () else Except.ok (addGraph g node to')

/-- Graphs reachable by a sequence of successful `DAG.add` calls starting from
the empty graph of `DAG.__init__`. -/
inductive Built : Graph → Prop where
  | nil : Built []
  | step {g : Graph} {n : Node} {to' : Option Node} {g' : Graph} :
      Built g → DAG.add g n to' = Except.ok g' → Built g'

/-- Well-formedness maintained by `DAG.add`: keys are distinct (dict keys) and
every successor is itself a key of the graph. -/
def WFGraph (g : Graph) : Prop :=
  (akeys g).Nodup ∧ ∀ p ∈ g, ∀ q ∈ p.2, q ∈ akeys g

/-- A directed edge of the adjacency mapping. -/
def isEdge (g : Graph) (u v : Node) : Prop := v ∈ succsOf g u

instance (g : Graph) (u v : Node) : Decidable (isEdge g u v) := by
  unfold isEdge; infer_instance

/-- The graph contains a directed cycle: a nonempty edge path from some node
back to itself. -/
def HasCycle (g : Graph) : Prop :=
  ∃ (u : Node) (l : List Node), List.Chain (isEdge g) u (l ++ [u])

/-- Number of direct predecessors of `v`, counted as occurrences of `v` in
successor lists (parallel edges count separately). -/
def predCount (g : Graph) (v : Node) : Nat :=
  (g.map (fun p => p.2.count v)).sum

/-- Edge instances received by `v` from the sources listed in `S`. -/
def recvd (g : Graph) (S : List Node) (v : Node) : Nat :=
  (S.map (fun u => (succsOf g u).count v)).sum

/-- Position of a node in a list (used to state "u precedes v"). -/
def idxOf (l : List Node) (n : Node) : Nat :=
  match l with
  | [] => 0
  | x :: xs => if x = n then 0 else idxOf xs n + 1

/-! ## The `Pipeline` class -/

/-- `Pipeline.task(depends_on)(f)`: `self.tasks.add(f)`, then
`if depends_on: self.tasks.add(depends_on, f)`.  Registration surfaces any
error raised by `DAG.add`. -/
def Pipeline.task (g : Graph) (f : Node) (depends_on : Option Node) :
    Except Unit Graph :=
  match DAG.add g f none with
  | Except.error e => Except.error e
  | Except.ok g1 =>
      match depends_on with
      | none => Except.ok g1
      | some dep => DAG.add g1 dep (some f)

/-- Units of work: each node's callable, invoked either with no input
(`task()`) or with one input (`task(completed[node])`); a raised exception is
an `Except.error`. -/
abbrev Works (E Val : Type) := Node → Option Val → Except E Val

/-- Failures observable from `Pipeline.run`: either an exception raised by a
unit of work (`workFail`, carrying the exception unmodified) or a `KeyError`
on `completed[node]` (unreachable for graphs built through registration).
Each failure carries the `completed` table as it stood when the exception was
raised, so that the transient state at the point of failure is observable. -/
inductive RunErr (E : Type) where
  | workFail : E → RunErr E
  | keyError : RunErr E

/-- `completed[task] = r`: dict write (update in place, or append if new). -/
def dinsert {Val : Type} : List (Node × Val) → Node → Val → List (Node × Val)
  | [], k, v => [(k, v)]
  | (k', v') :: rest, k, v =>
      if k' = k then (k, v) :: rest else (k', v') :: dinsert rest k v

/-- The inner `for node, values in self.tasks.graph.items()` loop of `run`:
whenever `task in values`, call `task(completed[node])` and store the result
under `task` (so a later match overwrites an earlier one). -/
def scanPreds {E Val : Type} (works : Works E Val) (task : Node) :
    Graph → List (Node × Val) →
    Except (RunErr E × List (Node × Val)) (List (Node × Val))
  | [], completed => Except.ok completed
  | (node, values) :: rest, completed =>
      if task ∈ values then
        match alookup completed node with
        | none => Except.error (RunErr.keyError, completed)
        | some v =>
            match works task (some v) with
            | Except.error e => Except.error (RunErr.workFail e, completed)
            | Except.ok r => scanPreds works task rest (dinsert completed task r)
      else scanPreds works task rest completed

/-- One iteration of `run`'s outer loop: scan the whole edge set for
predecessors of `task`, then `if task not in completed: completed[task] = task()`. -/
def runStep {E Val : Type} (works : Works E Val) (g : Graph)
    (completed : List (Node × Val)) (task : Node) :
    Except (RunErr E × List (Node × Val)) (List (Node × Val)) :=
  match scanPreds works task g completed with
  | Except.error e => Except.error e
  | Except.ok c1 =>
      if (alookup c1 task).isSome then Except.ok c1
      else
        match works task none with
        | Except.error e => Except.error (RunErr.workFail e, c1)
        | Except.ok r => Except.ok (c1 ++ [(task, r)])

/-- `for task in scheduled: ...` — runs each scheduled task in order,
aborting at the first raised exception. -/
def runSched {E Val : Type} (works : Works E Val) (g : Graph) :
    List Node → List (Node × Val) →
    Except (RunErr E × List (Node × Val)) (List (Node × Val))
  | [], completed => Except.ok completed
  | task :: rest, completed =>
      match runStep works g completed task with
      | Except.error e => Except.error e
      | Except.ok c1 => runSched works g rest c1

/-- `Pipeline.run`: compute the schedule with `DAG.sort`, then execute it,
returning the `completed` table. -/
def Pipeline.run {E Val : Type} (g : Graph) (works : Works E Val) :
    Except (RunErr E × List (Node × Val)) (List (Node × Val)) :=
  runSched works g (DAG.sort g) []

/-- The mutable state of the `DAG` object: `self.graph` and `self.degrees`
(the latter is (re)assigned by every `in_degrees`/`sort` call). -/
structure DAGState where
  graph : Graph
  degrees : Degrees

/-- `DAG.sort` as a state transformer on the `DAG` object: it overwrites
`self.degrees` (first by `in_degrees`, then by the loop's decrements) and
reads — never writes — `self.graph`. -/
def DAG.sortS (st : DAGState) : DAGState × List Node :=
  let r := sortImpl st.graph
  (⟨st.graph, r.1⟩, r.2)

/-- `Pipeline.run` as a state transformer on the owned `DAG` object: one
`sort` call, then the execution loop, which only reads `self.tasks.graph`. -/
def Pipeline.runS {E Val : Type} (st : DAGState) (works : Works E Val) :
    DAGState × Except (RunErr E × List (Node × Val)) (List (Node × Val)) :=
  let p := DAG.sortS st
  (p.1, runSched works p.1.graph p.2 [])

example : DAG.sort [(0, [1]), (1, [])] = [0, 1] := by decide
example : DAG.sort [(0, [1]), (1, [0])] = [] := by decide
example : DAG.add [] 0 (some 1) = Except.ok [(0, [1]), (1, [])] := rfl
example : DAG.add [(0, [1]), (1, [])] 1 (some 0) = Except.ok [(0, [1]), (1, [0])] := rfl
example : DAG.in_degrees [(0, [1, 2]), (1, [2]), (2, [])] = [(0, 0), (1, 1), (2, 2)] := by
  decide
example : DAG.sort [(0, [1, 2]), (1, [3]), (2, [3]), (3, [])] = [0, 1, 2, 3] := by decide

/-! ## Characterisation of `in_degrees` -/

theorem alookup_bumpDeg (ds : Degrees) (p n : Node) :
    alookup (bumpDeg ds p) n =
      if n = p then some ((alookup ds p).getD 0 + 1) else alookup ds n := by
  unfold bumpDeg
  rcases hds : alookup ds p with - | v
  · by_cases h : n = p
    · subst h
      rw [alookup_append, hds, if_pos rfl]
      simp [alookup_cons]
    · rw [alookup_append, if_neg h]
      have hpn : ¬ p = n := fun hh => h hh.symm
      rcases hn : alookup ds n with - | w
      · simp [alookup_cons, hpn]
      · rfl
  · by_cases h : n = p
    · subst h
      rw [alookup_aupdate_self, hds, if_pos rfl]
      rfl
    · rw [alookup_aupdate_of_ne ds h, if_neg h]

theorem akeys_bumpDeg_nodup {ds : Degrees} (hnd : (akeys ds).Nodup) (p : Node) :
    (akeys (bumpDeg ds p)).Nodup := by
  unfold bumpDeg
  rcases hds : alookup ds p with - | v
  · rw [akeys_append]
    simp only [akeys, List.map_cons, List.map_nil]
    rw [List.nodup_append]
    refine ⟨hnd, List.nodup_singleton p, ?_⟩
    intro x hx hx'
    simp only [List.mem_singleton] at hx'
    subst hx'
    exact absurd hx ((alookup_eq_none_iff ds x).mp hds)
  · rw [akeys_aupdate]; exact hnd

theorem bumpFold_alookup (s : List Node) (ds : Degrees) (n : Node) :
    alookup (s.foldl bumpDeg ds) n =
      if (alookup ds n).isSome ∨ 0 < s.count n
      then some ((alookup ds n).getD 0 + (s.count n : Int)) else none := by
  induction s generalizing ds with
  | nil =>
      rcases h : alookup ds n with - | v <;> simp [h]
  | cons p rest ih =>
      rw [List.foldl_cons, ih (bumpDeg ds p), alookup_bumpDeg]
      by_cases h : n = p
      · subst h
        have hc : (n :: rest).count n = rest.count n + 1 := by
          simp [List.count_cons]
        rw [if_pos rfl, hc]
        have hcond : ((some ((alookup ds n).getD 0 + 1)).isSome ∨ 0 < rest.count n) :=
          Or.inl rfl
        rw [if_pos hcond,
          if_pos (Or.inr (Nat.succ_pos (rest.count n)) :
            (alookup ds n).isSome ∨ 0 < rest.count n + 1)]
        simp only [Option.getD_some]
        congr 1
        push_cast
        ring
      · rw [if_neg h]
        have hpn : ¬ p = n := fun hh => h hh.symm
        have hc : (p :: rest).count n = rest.count n := by
          simp [List.count_cons, hpn]
        rw [hc]

theorem bumpFold_nodup (s : List Node) {ds : Degrees} (hnd : (akeys ds).Nodup) :
    (akeys (s.foldl bumpDeg ds)).Nodup := by
  induction s generalizing ds with
  | nil => exact hnd
  | cons p rest ih => exact ih (akeys_bumpDeg_nodup hnd p)

theorem predCount_append (g₁ g₂ : Graph) (n : Node) :
    predCount (g₁ ++ g₂) n = predCount g₁ n + predCount g₂ n := by
  simp [predCount]

theorem degStep_spec (pre : Graph) (ds : Degrees) (k : Node) (s : List Node)
    (ha : ∀ n, alookup ds n =
      if n ∈ akeys pre ∨ 0 < predCount pre n
      then some ((predCount pre n : Nat) : Int) else none)
    (hnd : (akeys ds).Nodup) :
    (∀ n, alookup (degStep ds (k, s)) n =
      if n ∈ akeys (pre ++ [(k, s)]) ∨ 0 < predCount (pre ++ [(k, s)]) n
      then some ((predCount (pre ++ [(k, s)]) n : Nat) : Int) else none)
    ∧ (akeys (degStep ds (k, s))).Nodup := by
  have hds1 : ∀ n, alookup
      (if (alookup ds k).isSome then ds else ds ++ [(k, (0 : Int))]) n =
      if n ∈ akeys pre ∨ 0 < predCount pre n
      then some ((predCount pre n : Nat) : Int)
      else if n = k then some (0 : Int) else none := by
    intro n
    by_cases hk : (alookup ds k).isSome
    · rw [if_pos hk, ha n]
      by_cases hc : n ∈ akeys pre ∨ 0 < predCount pre n
      · rw [if_pos hc, if_pos hc]
      · rw [if_neg hc, if_neg hc]
        by_cases hnk : n = k
        · subst hnk
          rw [ha n, if_neg hc] at hk
          cases hk
        · rw [if_neg hnk]
    · rw [if_neg hk, alookup_append, ha n]
      by_cases hc : n ∈ akeys pre ∨ 0 < predCount pre n
      · rw [if_pos hc, if_pos hc]
      · rw [if_neg hc, if_neg hc]
        by_cases hnk : n = k
        · subst hnk
          simp [alookup_cons]
        · have hk' : ¬ k = n := fun hh => hnk hh.symm
          simp [alookup_cons, hk', hnk]
  have hnd1 : (akeys
      (if (alookup ds k).isSome then ds else ds ++ [(k, (0 : Int))])).Nodup := by
    by_cases hk : (alookup ds k).isSome
    · rw [if_pos hk]; exact hnd
    · rw [if_neg hk, akeys_append]
      simp only [akeys, List.map_cons, List.map_nil]
      rw [List.nodup_append]
      refine ⟨hnd, List.nodup_singleton k, ?_⟩
      intro x hx hx'
      simp only [List.mem_singleton] at hx'
      subst hx'
      have hx2 : (alookup ds x).isSome := (alookup_isSome_iff_mem ds x).mpr hx
      exact hk hx2
  constructor
  · intro n
    show alookup (s.foldl bumpDeg _) n = _
    rw [bumpFold_alookup, hds1 n]
    have hm : n ∈ akeys (pre ++ [(k, s)]) ↔ n ∈ akeys pre ∨ n = k := by
      rw [akeys_append]
      simp [akeys]
    have hpc : predCount (pre ++ [(k, s)]) n = predCount pre n + s.count n := by
      rw [predCount_append]
      simp [predCount]
    by_cases hA : n ∈ akeys pre ∨ 0 < predCount pre n
    · rw [if_pos hA]
      have hcond : ((some ((predCount pre n : Nat) : Int)).isSome ∨ 0 < s.count n) :=
        Or.inl rfl
      rw [if_pos hcond]
      have htgt : n ∈ akeys (pre ++ [(k, s)]) ∨ 0 < predCount (pre ++ [(k, s)]) n := by
        rw [hm, hpc]
        rcases hA with hA | hA
        · exact Or.inl (Or.inl hA)
        · exact Or.inr (by omega)
      rw [if_pos htgt, hpc]
      simp only [Option.getD_some]
      push_cast
      ring_nf
    · rw [if_neg hA]
      have hpc0 : predCount pre n = 0 := by
        by_contra hh
        exact hA (Or.inr (Nat.pos_of_ne_zero hh))
      by_cases hC : n = k
      · rw [if_pos hC]
        have hcond : ((some (0 : Int)).isSome ∨ 0 < s.count n) := Or.inl rfl
        rw [if_pos hcond]
        have htgt : n ∈ akeys (pre ++ [(k, s)]) ∨ 0 < predCount (pre ++ [(k, s)]) n :=
          Or.inl (hm.mpr (Or.inr hC))
        rw [if_pos htgt, hpc, hpc0]
        simp
      · rw [if_neg hC]
        by_cases hD : 0 < s.count n
        · have hcond : ((none : Option Int).isSome ∨ 0 < s.count n) := Or.inr hD
          rw [if_pos hcond]
          have htgt : n ∈ akeys (pre ++ [(k, s)]) ∨ 0 < predCount (pre ++ [(k, s)]) n := by
            rw [hpc, hpc0]
            exact Or.inr (by omega)
          rw [if_pos htgt, hpc, hpc0]
          simp
        · have hcond : ¬ ((none : Option Int).isSome ∨ 0 < s.count n) := by
            rintro (hh | hh)
            · cases hh
            · exact hD hh
          rw [if_neg hcond]
          have htgt : ¬ (n ∈ akeys (pre ++ [(k, s)]) ∨
              0 < predCount (pre ++ [(k, s)]) n) := by
            rw [hm, hpc, hpc0]
            rintro ((hh | hh) | hh)
            · exact hA (Or.inl hh)
            · exact hC hh
            · omega
          rw [if_neg htgt]
  · exact bumpFold_nodup s hnd1

theorem in_degrees_fold (l : Graph) :
    ∀ (pre : Graph) (ds : Degrees),
      (∀ n, alookup ds n =
        if n ∈ akeys pre ∨ 0 < predCount pre n
        then some ((predCount pre n : Nat) : Int) else none) →
      (akeys ds).Nodup →
      (∀ n, alookup (l.foldl degStep ds) n =
        if n ∈ akeys (pre ++ l) ∨ 0 < predCount (pre ++ l) n
        then some ((predCount (pre ++ l) n : Nat) : Int) else none)
      ∧ (akeys (l.foldl degStep ds)).Nodup := by
  induction l with
  | nil =>
      intro pre ds ha hnd
      simpa using And.intro ha hnd
  | cons kv rest ih =>
      intro pre ds ha hnd
      obtain ⟨k, s⟩ := kv
      obtain ⟨ha', hnd'⟩ := degStep_spec pre ds k s ha hnd
      have := ih (pre ++ [(k, s)]) (degStep ds (k, s)) ha' hnd'
      simpa using this

theorem in_degrees_spec (g : Graph) :
    (∀ n, alookup (DAG.in_degrees g) n =
      if n ∈ akeys g ∨ 0 < predCount g n
      then some ((predCount g n : Nat) : Int) else none)
    ∧ (akeys (DAG.in_degrees g)).Nodup := by
  have := in_degrees_fold g [] []
    (by intro n; simp [predCount, akeys]) (by simp [akeys])
  simpa [DAG.in_degrees] using this

/-! ## Characterisation of the inner loop of `sort` -/

theorem posSum_aupdate {ds : Degrees} {k : Node} {v : Int} (hv : alookup ds k = some v)
    (f : Int → Int) :
    posSum (aupdate ds k f) + v.toNat = posSum ds + (f v).toNat := by
  induction ds with
  | nil => cases hv
  | cons p rest ih =>
      obtain ⟨k', w⟩ := p
      by_cases hk : k' = k
      · subst hk
        rw [alookup_cons, if_pos rfl] at hv
        cases hv
        rw [aupdate, if_pos rfl]
        simp only [posSum, List.map_cons, List.sum_cons]
        omega
      · rw [alookup_cons, if_neg hk] at hv
        rw [aupdate, if_neg hk]
        simp only [posSum, List.map_cons, List.sum_cons]
        have := ih hv
        simp only [posSum] at this
        omega

theorem succStep_measure (acc : Degrees × List Node) (p : Node) :
    (succStep acc p).2.length + posSum (succStep acc p).1 ≤
      acc.2.length + posSum acc.1 := by
  obtain ⟨ds, d⟩ := acc
  rcases hv : alookup ds p with - | v
  · have hid : decDeg ds p = ds := aupdate_of_alookup_none hv _
    simp only [succStep, hid, hv]
    rw [if_neg (by simp)]
  · have hps : posSum (decDeg ds p) + v.toNat = posSum ds + (v - 1).toNat :=
      posSum_aupdate hv _
    have hlk : alookup (decDeg ds p) p = some (v - 1) := by
      rw [decDeg, alookup_aupdate_self, hv]; rfl
    simp only [succStep, hlk]
    by_cases h1 : v - 1 = 0
    · rw [if_pos (by rw [h1])]
      simp only [List.length_append, List.length_singleton]
      have : v = 1 := by omega
      subst this
      simp only [Int.toNat_one] at hps
      norm_num at hps
      omega
    · rw [if_neg (by simp [h1])]
      have : (v - 1).toNat ≤ v.toNat := Int.toNat_le_toNat (by omega)
      omega

theorem processSuccs_measure (succs : List Node) (ds : Degrees) (d : List Node) :
    (processSuccs ds d succs).2.length + posSum (processSuccs ds d succs).1 ≤
      d.length + posSum ds := by
  induction succs generalizing ds d with
  | nil => exact Nat.le_refl _
  | cons s rest ih =>
      have hstep := succStep_measure (ds, d) s
      have hrec := ih (succStep (ds, d) s).1 (succStep (ds, d) s).2
      calc (processSuccs ds d (s :: rest)).2.length +
            posSum (processSuccs ds d (s :: rest)).1
          = (processSuccs (succStep (ds, d) s).1 (succStep (ds, d) s).2 rest).2.length +
            posSum (processSuccs (succStep (ds, d) s).1 (succStep (ds, d) s).2 rest).1 := by
            rfl
        _ ≤ (succStep (ds, d) s).2.length + posSum (succStep (ds, d) s).1 := hrec
        _ ≤ d.length + posSum ds := hstep

/-- Full characterisation of the inner loop: provided every pointer to be
processed currently holds a degree at least its number of occurrences, the
loop decrements each key by its occurrence count and enqueues exactly those
pointers whose degree lands on zero (each at most once). -/
theorem processSuccs_spec :
    ∀ (succs : List Node) (ds : Degrees) (d : List Node),
      (∀ p ∈ succs, ∃ v : Int, alookup ds p = some v ∧ (succs.count p : Int) ≤ v) →
      (∀ x, alookup (processSuccs ds d succs).1 x =
          (alookup ds x).map (fun v => v - (succs.count x : Int)))
      ∧ ∃ enq, (processSuccs ds d succs).2 = d ++ enq ∧ enq.Nodup
          ∧ (∀ p, p ∈ enq ↔ p ∈ succs ∧
              alookup ds p = some ((succs.count p : Nat) : Int)) := by
  intro succs
  induction succs with
  | nil =>
      intro ds d hyp
      constructor
      · intro x
        rcases h : alookup ds x with - | v <;> simp [processSuccs, h]
      · exact ⟨[], by simp [processSuccs], List.nodup_nil, by simp⟩
  | cons s rest ih =>
      intro ds d hyp
      obtain ⟨v, hv, hvge⟩ := hyp s (List.mem_cons_self s rest)
      have hcs : (s :: rest).count s = rest.count s + 1 := by
        simp [List.count_cons]
      rw [hcs] at hvge
      push_cast at hvge
      have hds1 : alookup (decDeg ds s) s = some (v - 1) := by
        rw [decDeg, alookup_aupdate_self, hv]; rfl
      have hds1ne : ∀ x, x ≠ s → alookup (decDeg ds s) x = alookup ds x := by
        intro x hx
        exact alookup_aupdate_of_ne ds hx _
      have hunfold : processSuccs ds d (s :: rest) =
          processSuccs (decDeg ds s)
            (if alookup (decDeg ds s) s = some 0 then d ++ [s] else d) rest := rfl
      have hyp' : ∀ p ∈ rest, ∃ w : Int,
          alookup (decDeg ds s) p = some w ∧ (rest.count p : Int) ≤ w := by
        intro p hp
        obtain ⟨u, hu, huge⟩ := hyp p (List.mem_cons_of_mem s hp)
        by_cases hps : p = s
        · subst hps
          rw [hv] at hu
          cases hu
          rw [hcs] at huge
          push_cast at huge
          exact ⟨v - 1, hds1, by omega⟩
        · have hcp : (s :: rest).count p = rest.count p := by
            simp [List.count_cons, fun hh : p = s => hps hh]
          rw [hcp] at huge
          exact ⟨u, by rw [hds1ne p hps]; exact hu, huge⟩
      obtain ⟨ihl, enq1, ihq, ihnd, ihmem⟩ :=
        ih (decDeg ds s) (if alookup (decDeg ds s) s = some 0 then d ++ [s] else d) hyp'
      constructor
      · intro x
        rw [hunfold, ihl x]
        by_cases hx : x = s
        · subst hx
          rw [hds1, hv, hcs]
          simp only [Option.map_some']
          congr 1
          push_cast
          ring
        · rw [hds1ne x hx]
          have hcx : (s :: rest).count x = rest.count x := by
            simp [List.count_cons, fun hh : x = s => hx hh]
          rw [hcx]
      · refine ⟨(if v = 1 then [s] else []) ++ enq1, ?_, ?_, ?_⟩
        · rw [hunfold, ihq]
          have : (if alookup (decDeg ds s) s = some 0 then d ++ [s] else d) =
              d ++ (if v = 1 then [s] else []) := by
            rw [hds1]
            by_cases h1 : v = 1
            · rw [if_pos h1, if_pos (by rw [h1]; rfl)]
            · rw [if_neg h1, if_neg (by simp; omega), List.append_nil]
          rw [this, List.append_assoc]
        · by_cases h1 : v = 1
          · rw [if_pos h1]
            have hs1 : s ∉ enq1 := by
              intro hs
              obtain ⟨hsrest, -⟩ := (ihmem s).mp hs
              have : 0 < rest.count s := List.count_pos_iff.mpr hsrest
              omega
            simp only [List.singleton_append, List.nodup_cons]
            exact ⟨hs1, ihnd⟩
          · rw [if_neg h1, List.nil_append]
            exact ihnd
        · intro p
          simp only [List.mem_append]
          constructor
          · rintro (hpl | hpr)
            · have hps : p = s := by
                by_cases h1 : v = 1
                · rw [if_pos h1] at hpl
                  simpa using hpl
                · rw [if_neg h1] at hpl
                  simp at hpl
              subst hps
              have h1 : v = 1 := by
                by_contra h1
                rw [if_neg h1] at hpl
                simp at hpl
              refine ⟨List.mem_cons_self p rest, ?_⟩
              rw [hv, hcs]
              have : rest.count p = 0 := by omega
              rw [this]
              norm_num
              omega
            · obtain ⟨hprest, hpv⟩ := (ihmem p).mp hpr
              by_cases hps : p = s
              · subst hps
                rw [hds1] at hpv
                have hc0 : 0 < rest.count p := List.count_pos_iff.mpr hprest
                have : v - 1 = (rest.count p : Int) := by
                  exact Option.some.inj hpv
                refine ⟨List.mem_cons_self p rest, ?_⟩
                rw [hv, hcs]
                congr 1
                push_cast
                omega
              · rw [hds1ne p hps] at hpv
                have hcp : (s :: rest).count p = rest.count p := by
                  simp [List.count_cons, fun hh : p = s => hps hh]
                exact ⟨List.mem_cons_of_mem s hprest, by rw [hcp]; exact hpv⟩
          · rintro ⟨hpmem, hpv⟩
            by_cases hps : p = s
            · subst hps
              rw [hv, hcs] at hpv
              have hveq : v = (rest.count p : Int) + 1 := by
                have := Option.some.inj hpv
                push_cast at this
                omega
              by_cases h0 : rest.count p = 0
              · left
                rw [h0] at hveq
                norm_num at hveq
                rw [if_pos hveq]
                exact List.mem_singleton_self p
              · right
                rw [ihmem p]
                refine ⟨List.count_pos_iff.mp (Nat.pos_of_ne_zero h0), ?_⟩
                rw [hds1]
                congr 1
                omega
            · right
              rw [ihmem p]
              have hprest : p ∈ rest := by
                rcases List.mem_cons.mp hpmem with h | h
                · exact absurd h hps
                · exact h
              have hcp : (s :: rest).count p = rest.count p := by
                simp [List.count_cons, fun hh : p = s => hps hh]
              rw [hcp] at hpv
              exact ⟨hprest, by rw [hds1ne p hps]; exact hpv⟩

/-! ## Counting received edge instances -/

theorem recvd_nil (g : Graph) (v : Node) : recvd g [] v = 0 := rfl

theorem recvd_append_single (g : Graph) (S : List Node) (u v : Node) :
    recvd g (S ++ [u]) v = recvd g S v + (succsOf g u).count v := by
  simp [recvd]

theorem natSum_le_of_sublist {l₁ l₂ : List Nat} (h : List.Sublist l₁ l₂) :
    l₁.sum ≤ l₂.sum := by
  induction h with
  | slnil => exact Nat.le_refl _
  | cons a h ih => simpa using Nat.le_trans ih (Nat.le_add_left _ _)
  | cons₂ a h ih => simpa using ih

theorem recvd_le_of_subperm {S T : List Node} (g : Graph) (v : Node) (h : List.Subperm S T) :
    recvd g S v ≤ recvd g T v := by
  obtain ⟨l, hperm, hsub⟩ := h
  have h1 : (l.map (fun u => (succsOf g u).count v)).sum =
      (S.map (fun u => (succsOf g u).count v)).sum :=
    (hperm.map _).sum_eq
  have h2 : (l.map (fun u => (succsOf g u).count v)).sum ≤
      (T.map (fun u => (succsOf g u).count v)).sum :=
    natSum_le_of_sublist (hsub.map _)
  unfold recvd
  omega

theorem recvd_perm {S T : List Node} (g : Graph) (v : Node) (h : S.Perm T) :
    recvd g S v = recvd g T v :=
  (h.map _).sum_eq

theorem recvd_keys_eq_predCount (g : Graph) (hnd : (akeys g).Nodup) (v : Node) :
    recvd g (akeys g) v = predCount g v := by
  induction g with
  | nil => rfl
  | cons p rest ih =>
      obtain ⟨k, s⟩ := p
      simp only [akeys, List.map_cons, List.nodup_cons] at hnd
      have hk : succsOf ((k, s) :: rest) k = s := by
        simp [succsOf, alookup_cons]
      have hrest : ∀ u ∈ akeys rest,
          succsOf ((k, s) :: rest) u = succsOf rest u := by
        intro u hu
        have hne : ¬ k = u := fun hh => hnd.1 (hh ▸ hu)
        simp [succsOf, alookup_cons, hne]
      show recvd ((k, s) :: rest) (k :: List.map Prod.fst rest) v = _
      simp only [recvd, List.map_cons, List.sum_cons]
      rw [hk]
      have hcongr : (List.map Prod.fst rest).map
            (fun u => (succsOf ((k, s) :: rest) u).count v) =
          (List.map Prod.fst rest).map (fun u => (succsOf rest u).count v) :=
        List.map_congr_left (fun u hu => by rw [hrest u hu])
      have := ih hnd.2
      simp only [recvd, akeys] at this
      simp only [hcongr, this]
      simp [predCount]

theorem recvd_le_predCount {g : Graph} (hnd : (akeys g).Nodup) {S : List Node}
    (hSnd : S.Nodup) (hsub : ∀ x ∈ S, x ∈ akeys g) (v : Node) :
    recvd g S v ≤ predCount g v := by
  rw [← recvd_keys_eq_predCount g hnd v]
  exact recvd_le_of_subperm g v (hSnd.subperm hsub)

/-! ## Edges, keys and positions -/

theorem mem_of_alookup_eq_some {α : Type} {l : List (Node × α)} {n : Node} {v : α}
    (h : alookup l n = some v) : (n, v) ∈ l := by
  induction l with
  | nil => cases h
  | cons p rest ih =>
      obtain ⟨k, w⟩ := p
      by_cases hk : k = n
      · subst hk
        rw [alookup_cons, if_pos rfl] at h
        cases h
        exact List.mem_cons_self _ _
      · rw [alookup_cons, if_neg hk] at h
        exact List.mem_cons_of_mem _ (ih h)

theorem isEdge_mem_keys_left {g : Graph} {u v : Node} (h : isEdge g u v) :
    u ∈ akeys g := by
  unfold isEdge succsOf at h
  rcases hl : alookup g u with - | s
  · rw [hl] at h; cases h
  · exact mem_keys_of_alookup_eq_some hl

theorem isEdge_mem_keys_right {g : Graph} (hwf : WFGraph g) {u v : Node}
    (h : isEdge g u v) : v ∈ akeys g := by
  unfold isEdge succsOf at h
  rcases hl : alookup g u with - | s
  · rw [hl] at h; cases h
  · rw [hl] at h
    exact hwf.2 (u, s) (mem_of_alookup_eq_some hl) v h

theorem isEdge_iff_count_pos {g : Graph} {u v : Node} :
    isEdge g u v ↔ 0 < (succsOf g u).count v := by
  rw [isEdge, List.count_pos_iff]

theorem idxOf_cons (x : Node) (xs : List Node) (n : Node) :
    idxOf (x :: xs) n = if x = n then 0 else idxOf xs n + 1 := rfl

theorem idxOf_lt_length {l : List Node} {n : Node} (h : n ∈ l) :
    idxOf l n < l.length := by
  induction l with
  | nil => cases h
  | cons x xs ih =>
      by_cases hx : x = n
      · simp [idxOf, hx]
      · rcases List.mem_cons.mp h with h' | h'
        · exact absurd h'.symm hx
        · simp only [idxOf, if_neg hx, List.length_cons]
          exact Nat.succ_lt_succ (ih h')

theorem idxOf_append_left {l l' : List Node} {n : Node} (h : n ∈ l) :
    idxOf (l ++ l') n = idxOf l n := by
  induction l with
  | nil => cases h
  | cons x xs ih =>
      by_cases hx : x = n
      · simp [idxOf, hx]
      · rcases List.mem_cons.mp h with h' | h'
        · exact absurd h'.symm hx
        · rw [List.cons_append, idxOf_cons, if_neg hx, ih h', idxOf_cons, if_neg hx]

theorem idxOf_append_fresh {l : List Node} {n : Node} (h : n ∉ l) :
    idxOf (l ++ [n]) n = l.length := by
  induction l with
  | nil => simp [idxOf]
  | cons x xs ih =>
      have hx : ¬ x = n := fun hh => h (hh ▸ List.mem_cons_self x xs)
      rw [List.cons_append, idxOf_cons, if_neg hx, List.length_cons,
        ih (fun hh => h (List.mem_cons_of_mem x hh))]

/-! ## The Kahn loop invariant -/

/-- Invariant holding between iterations of `sort`'s `while d:` loop:
degrees record exactly the not-yet-delivered edge instances, the deque and
output are disjoint lists of keys, a node has been reached iff all its
incoming edge instances were delivered, and the output is closed under
predecessors with positions respecting the edges. -/
def KahnInv (g : Graph) (ds : Degrees) (d searched : List Node) : Prop :=
  (∀ n, alookup ds n =
      if n ∈ akeys g
      then some ((predCount g n : Int) - (recvd g searched n : Int)) else none)
  ∧ (d ++ searched).Nodup
  ∧ (∀ n ∈ d ++ searched, n ∈ akeys g)
  ∧ (∀ n ∈ akeys g, (n ∈ d ++ searched ↔ recvd g searched n = predCount g n))
  ∧ (∀ u w, isEdge g u w → w ∈ searched →
      u ∈ searched ∧ idxOf searched u < idxOf searched w)

theorem natSum_pos_exists {α : Type} {l : List α} {f : α → Nat}
    (h : 0 < (l.map f).sum) : ∃ x ∈ l, 0 < f x := by
  induction l with
  | nil => simp at h
  | cons a t ih =>
      simp only [List.map_cons, List.sum_cons] at h
      by_cases ha : 0 < f a
      · exact ⟨a, List.mem_cons_self a t, ha⟩
      · have : 0 < (t.map f).sum := by omega
        obtain ⟨x, hx, hfx⟩ := ih this
        exact ⟨x, List.mem_cons_of_mem a hx, hfx⟩

theorem predCount_pos_mem {g : Graph} (hwf : WFGraph g) {n : Node}
    (h : 0 < predCount g n) : n ∈ akeys g := by
  unfold predCount at h
  obtain ⟨p, hp, hcp⟩ := natSum_pos_exists h
  exact hwf.2 p hp n (List.count_pos_iff.mp hcp)

theorem mem_seedQueue_iff {ds : Degrees} (hnd : (akeys ds).Nodup) (n : Node) :
    n ∈ seedQueue ds ↔ alookup ds n = some 0 := by
  unfold seedQueue
  simp only [List.mem_map, List.mem_filter, decide_eq_true_eq]
  constructor
  · rintro ⟨⟨k, v⟩, ⟨hmem, hv0⟩, heq⟩
    simp only at heq hv0
    subst heq
    subst hv0
    exact (alookup_eq_some_iff_mem hnd k 0).mpr hmem
  · intro h
    exact ⟨(n, 0), ⟨(alookup_eq_some_iff_mem hnd n 0).mp h, rfl⟩, rfl⟩

theorem seedQueue_nodup {ds : Degrees} (hnd : (akeys ds).Nodup) :
    (seedQueue ds).Nodup := by
  have hsl : List.Sublist ((ds.filter (fun p => decide (p.2 = 0))).map Prod.fst)
      (ds.map Prod.fst) := (ds.filter_sublist).map Prod.fst
  exact hnd.sublist hsl

theorem kahnInit (g : Graph) (hwf : WFGraph g) :
    KahnInv g (DAG.in_degrees g) (seedQueue (DAG.in_degrees g)) [] := by
  obtain ⟨hspec, hdnd⟩ := in_degrees_spec g
  have halo : ∀ n, alookup (DAG.in_degrees g) n =
      if n ∈ akeys g then some ((predCount g n : Nat) : Int) else none := by
    intro n
    rw [hspec n]
    by_cases hK : n ∈ akeys g
    · rw [if_pos (Or.inl hK), if_pos hK]
    · by_cases hp : 0 < predCount g n
      · exact absurd (predCount_pos_mem hwf hp) hK
      · rw [if_neg (by tauto), if_neg hK]
  refine ⟨?_, ?_, ?_, ?_, ?_⟩
  · intro n
    rw [halo n, recvd_nil]
    by_cases hK : n ∈ akeys g
    · rw [if_pos hK, if_pos hK]
      norm_num
    · rw [if_neg hK, if_neg hK]
  · rw [List.append_nil]
    exact seedQueue_nodup hdnd
  · intro n hn
    rw [List.append_nil] at hn
    have h0 := (mem_seedQueue_iff hdnd n).mp hn
    rw [halo n] at h0
    by_cases hK : n ∈ akeys g
    · exact hK
    · rw [if_neg hK] at h0; cases h0
  · intro n hK
    rw [List.append_nil, recvd_nil, mem_seedQueue_iff hdnd n, halo n, if_pos hK]
    constructor
    · intro h
      have : ((predCount g n : Nat) : Int) = 0 := Option.some.inj h
      omega
    · intro h
      have : ((predCount g n : Nat) : Int) = 0 := by omega
      rw [this]
  · intro u w hedge hw
    cases hw

theorem kahnStep (g : Graph) (hwf : WFGraph g) (ds : Degrees) (node_i : Node)
    (rest searched : List Node)
    (hinv : KahnInv g ds (node_i :: rest) searched) :
    KahnInv g (processSuccs ds rest (succsOf g node_i)).1
      (processSuccs ds rest (succsOf g node_i)).2 (searched ++ [node_i]) := by
  obtain ⟨ha, hnd, hsub, hiff, hord⟩ := hinv
  have hknd : (akeys g).Nodup := hwf.1
  have hniK : node_i ∈ akeys g :=
    hsub node_i (List.mem_append.mpr (Or.inl (List.mem_cons_self node_i rest)))
  have hnd' : (node_i :: (rest ++ searched)).Nodup := by
    rw [List.cons_append] at hnd; exact hnd
  have hniRS : node_i ∉ rest ++ searched := (List.nodup_cons.mp hnd').1
  have hniR : node_i ∉ rest := fun h => hniRS (List.mem_append.mpr (Or.inl h))
  have hniS : node_i ∉ searched := fun h => hniRS (List.mem_append.mpr (Or.inr h))
  have hRS : (rest ++ searched).Nodup := (List.nodup_cons.mp hnd').2
  have hRnd : rest.Nodup := (List.nodup_append.mp hRS).1
  have hSnd : searched.Nodup := (List.nodup_append.mp hRS).2.1
  have hRSdisj : rest.Disjoint searched := (List.nodup_append.mp hRS).2.2
  have hSsub : ∀ x ∈ searched, x ∈ akeys g := fun x hx =>
    hsub x (List.mem_append.mpr (Or.inr hx))
  have hRsub : ∀ x ∈ rest, x ∈ akeys g := fun x hx =>
    hsub x (List.mem_append.mpr (Or.inl (List.mem_cons_of_mem node_i hx)))
  have hS'nd : (searched ++ [node_i]).Nodup := by
    rw [List.nodup_append]
    refine ⟨hSnd, List.nodup_singleton node_i, ?_⟩
    intro a ha1 ha2
    rw [List.mem_singleton] at ha2
    subst ha2
    exact hniS ha1
  have hS'sub : ∀ x ∈ searched ++ [node_i], x ∈ akeys g := by
    intro x hx
    rcases List.mem_append.mp hx with h | h
    · exact hSsub x h
    · rw [List.mem_singleton] at h; subst h; exact hniK
  have hrecvd' : ∀ x, recvd g (searched ++ [node_i]) x =
      recvd g searched x + (succsOf g node_i).count x :=
    fun x => recvd_append_single g searched node_i x
  have hstar : ∀ x, recvd g searched x + (succsOf g node_i).count x ≤
      predCount g x := by
    intro x
    rw [← hrecvd' x]
    exact recvd_le_predCount hknd hS'nd hS'sub x
  have hrc_le : ∀ x, recvd g searched x ≤ predCount g x :=
    fun x => recvd_le_predCount hknd hSnd hSsub x
  have hrc_eq_of_mem : ∀ n, n ∈ (node_i :: rest) ++ searched →
      recvd g searched n = predCount g n :=
    fun n hn => (hiff n (hsub n hn)).mp hn
  have hcnt0 : ∀ n, n ∈ (node_i :: rest) ++ searched →
      (succsOf g node_i).count n = 0 := by
    intro n hn
    have h1 := hrc_eq_of_mem n hn
    have h2 := hstar n
    omega
  have hsK : ∀ p ∈ succsOf g node_i, p ∈ akeys g := by
    intro p hp
    exact isEdge_mem_keys_right hwf (show isEdge g node_i p from hp)
  have hspec_hyp : ∀ p ∈ succsOf g node_i, ∃ v : Int,
      alookup ds p = some v ∧ ((succsOf g node_i).count p : Int) ≤ v := by
    intro p hp
    refine ⟨(predCount g p : Int) - (recvd g searched p : Int), ?_, ?_⟩
    · rw [ha p, if_pos (hsK p hp)]
    · have := hstar p
      push_cast
      omega
  obtain ⟨hlk, enq, henq, henqnd, hqmem⟩ :=
    processSuccs_spec (succsOf g node_i) ds rest hspec_hyp
  have henq_sub : ∀ p ∈ enq, p ∈ akeys g := by
    intro p hp
    exact hsK p ((hqmem p).mp hp).1
  have henq_bal : ∀ p ∈ enq,
      recvd g searched p + (succsOf g node_i).count p = predCount g p := by
    intro p hp
    obtain ⟨hps, hpv⟩ := (hqmem p).mp hp
    rw [ha p, if_pos (hsK p hps)] at hpv
    have := Option.some.inj hpv
    have h2 := hrc_le p
    omega
  have henq_cnt_pos : ∀ p ∈ enq, 0 < (succsOf g node_i).count p := by
    intro p hp
    exact List.count_pos_iff.mpr ((hqmem p).mp hp).1
  have henq_not_old : ∀ p ∈ enq, p ∉ (node_i :: rest) ++ searched := by
    intro p hp hold
    have h1 := hcnt0 p hold
    have h2 := henq_cnt_pos p hp
    omega
  refine ⟨?_, ?_, ?_, ?_, ?_⟩
  · intro n
    rw [hlk n, ha n]
    by_cases hK : n ∈ akeys g
    · rw [if_pos hK, if_pos hK, hrecvd' n]
      simp only [Option.map_some']
      congr 1
      push_cast
      ring
    · rw [if_neg hK, if_neg hK]
      rfl
  · rw [henq, List.nodup_append]
    refine ⟨?_, hS'nd, ?_⟩
    · rw [List.nodup_append]
      refine ⟨hRnd, henqnd, ?_⟩
      intro a ha1 ha2
      exact henq_not_old a ha2
        (List.mem_append.mpr (Or.inl (List.mem_cons_of_mem node_i ha1)))
    · intro a ha1 ha2
      rcases List.mem_append.mp ha1 with h1 | h1
      · rcases List.mem_append.mp ha2 with h2 | h2
        · exact hRSdisj h1 h2
        · rw [List.mem_singleton] at h2
          subst h2
          exact hniR h1
      · rcases List.mem_append.mp ha2 with h2 | h2
        · exact henq_not_old a h1 (List.mem_append.mpr (Or.inr h2))
        · rw [List.mem_singleton] at h2
          subst h2
          exact henq_not_old a h1
            (List.mem_append.mpr (Or.inl (List.mem_cons_self a rest)))
  · intro n hn
    rw [henq] at hn
    rcases List.mem_append.mp hn with h | h
    · rcases List.mem_append.mp h with h1 | h1
      · exact hRsub n h1
      · exact henq_sub n h1
    · exact hS'sub n h
  · intro n hK
    rw [henq, hrecvd' n]
    constructor
    · intro hn
      rcases List.mem_append.mp hn with h | h
      · rcases List.mem_append.mp h with h1 | h1
        · have hold : n ∈ (node_i :: rest) ++ searched :=
            List.mem_append.mpr (Or.inl (List.mem_cons_of_mem node_i h1))
          have := hrc_eq_of_mem n hold
          have := hcnt0 n hold
          omega
        · exact henq_bal n h1
      · rcases List.mem_append.mp h with h1 | h1
        · have hold : n ∈ (node_i :: rest) ++ searched :=
            List.mem_append.mpr (Or.inr h1)
          have := hrc_eq_of_mem n hold
          have := hcnt0 n hold
          omega
        · rw [List.mem_singleton] at h1
          have hold : n ∈ (node_i :: rest) ++ searched := by
            rw [h1]
            exact List.mem_append.mpr (Or.inl (List.mem_cons_self node_i rest))
          have := hrc_eq_of_mem n hold
          have := hcnt0 n hold
          omega
    · intro hbal
      by_cases hold : n ∈ (node_i :: rest) ++ searched
      · rcases List.mem_append.mp hold with h | h
        · rcases List.mem_cons.mp h with h1 | h1
          · subst h1
            exact List.mem_append.mpr
              (Or.inr (List.mem_append.mpr (Or.inr (List.mem_singleton_self n))))
          · exact List.mem_append.mpr
              (Or.inl (List.mem_append.mpr (Or.inl h1)))
        · exact List.mem_append.mpr
            (Or.inr (List.mem_append.mpr (Or.inl h)))
      · have hne : recvd g searched n ≠ predCount g n :=
          fun hh => hold ((hiff n hK).mpr hh)
        have hlt : recvd g searched n < predCount g n :=
          Nat.lt_of_le_of_ne (hrc_le n) hne
        have hcpos : 0 < (succsOf g node_i).count n := by omega
        have hns : n ∈ succsOf g node_i := List.count_pos_iff.mp hcpos
        have hv : alookup ds n =
            some (((succsOf g node_i).count n : Nat) : Int) := by
          rw [ha n, if_pos hK]
          congr 1
          push_cast
          omega
        exact List.mem_append.mpr
          (Or.inl (List.mem_append.mpr (Or.inr ((hqmem n).mpr ⟨hns, hv⟩))))
  · intro u w hedge hw
    rcases List.mem_append.mp hw with hwS | hwI
    · obtain ⟨huS, hidx⟩ := hord u w hedge hwS
      refine ⟨List.mem_append.mpr (Or.inl huS), ?_⟩
      rw [idxOf_append_left huS, idxOf_append_left hwS]
      exact hidx
    · rw [List.mem_singleton] at hwI
      subst hwI
      have hcpos : 0 < (succsOf g u).count w := isEdge_iff_count_pos.mp hedge
      have hq : recvd g searched w = predCount g w :=
        hrc_eq_of_mem w (List.mem_append.mpr (Or.inl (List.mem_cons_self w rest)))
      have huS : u ∈ searched := by
        by_contra huS
        have hnd2 : (searched ++ [u]).Nodup := by
          rw [List.nodup_append]
          refine ⟨hSnd, List.nodup_singleton u, ?_⟩
          intro a ha1 ha2
          rw [List.mem_singleton] at ha2
          subst ha2
          exact huS ha1
        have hsub2 : ∀ x ∈ searched ++ [u], x ∈ akeys g := by
          intro x hx
          rcases List.mem_append.mp hx with h | h
          · exact hSsub x h
          · rw [List.mem_singleton] at h
            subst h
            exact isEdge_mem_keys_left hedge
        have hle := recvd_le_predCount hknd hnd2 hsub2 w
        rw [recvd_append_single] at hle
        omega
      refine ⟨List.mem_append.mpr (Or.inl huS), ?_⟩
      rw [idxOf_append_left huS, idxOf_append_fresh hniS]
      exact idxOf_lt_length huS

theorem sortLoopF_inv (g : Graph) (hwf : WFGraph g) :
    ∀ (fuel : Nat) (ds : Degrees) (d searched : List Node),
      KahnInv g ds d searched → d.length + posSum ds ≤ fuel →
      KahnInv g (sortLoopF g fuel ds d searched).1 []
        (sortLoopF g fuel ds d searched).2 := by
  intro fuel
  induction fuel with
  | zero =>
      intro ds d searched hinv hfuel
      cases d with
      | nil => exact hinv
      | cons a l => simp at hfuel
  | succ fuel ih =>
      intro ds d searched hinv hfuel
      cases d with
      | nil => exact hinv
      | cons node_i rest =>
          have hstep := kahnStep g hwf ds node_i rest searched hinv
          have hmeas := processSuccs_measure (succsOf g node_i) ds rest
          have hfuel' : (processSuccs ds rest (succsOf g node_i)).2.length +
              posSum (processSuccs ds rest (succsOf g node_i)).1 ≤ fuel := by
            simp only [List.length_cons] at hfuel
            omega
          exact ih (processSuccs ds rest (succsOf g node_i)).1
            (processSuccs ds rest (succsOf g node_i)).2
            (searched ++ [node_i]) hstep hfuel'

/-- Master specification of `DAG.sort` on well-formed graphs: the output has
no duplicates, consists of graph keys, contains a node exactly when all its
incoming edge instances were delivered from the output itself, and is
predecessor-closed with edge-respecting positions. -/
theorem sort_spec (g : Graph) (hwf : WFGraph g) :
    (DAG.sort g).Nodup
    ∧ (∀ n ∈ DAG.sort g, n ∈ akeys g)
    ∧ (∀ n ∈ akeys g,
        (n ∈ DAG.sort g ↔ recvd g (DAG.sort g) n = predCount g n))
    ∧ (∀ u w, isEdge g u w → w ∈ DAG.sort g →
        u ∈ DAG.sort g ∧ idxOf (DAG.sort g) u < idxOf (DAG.sort g) w) := by
  have hinit := kahnInit g hwf
  have h := sortLoopF_inv g hwf
    ((seedQueue (DAG.in_degrees g)).length + posSum (DAG.in_degrees g))
    (DAG.in_degrees g) (seedQueue (DAG.in_degrees g)) [] hinit (Nat.le_refl _)
  obtain ⟨-, hnd, hsub, hiff, hord⟩ := h
  have heq2 : DAG.sort g =
      (sortLoopF g
        ((seedQueue (DAG.in_degrees g)).length + posSum (DAG.in_degrees g))
        (DAG.in_degrees g) (seedQueue (DAG.in_degrees g)) []).2 := rfl
  rw [List.nil_append] at hnd hsub hiff
  rw [heq2]
  exact ⟨hnd, hsub, hiff, hord⟩

/-! ## `DAG.add` preserves well-formedness -/

theorem mem_aupdate {α : Type} {l : List (Node × α)} {k : Node} {f : α → α}
    {p : Node × α} (hp : p ∈ aupdate l k f) :
    p ∈ l ∨ ∃ v, alookup l k = some v ∧ p = (k, f v) := by
  induction l with
  | nil => cases hp
  | cons q rest ih =>
      obtain ⟨k', v'⟩ := q
      by_cases hk : k' = k
      · subst hk
        rw [aupdate, if_pos rfl] at hp
        rcases List.mem_cons.mp hp with h | h
        · exact Or.inr ⟨v', by rw [alookup_cons, if_pos rfl], h⟩
        · exact Or.inl (List.mem_cons_of_mem _ h)
      · rw [aupdate, if_neg hk] at hp
        rcases List.mem_cons.mp hp with h | h
        · exact Or.inl (h ▸ List.mem_cons_self _ _)
        · rcases ih h with h' | ⟨v, hv, hpv⟩
          · exact Or.inl (List.mem_cons_of_mem _ h')
          · exact Or.inr ⟨v, by rw [alookup_cons, if_neg hk]; exact hv, hpv⟩

theorem mem_akeys_addKey_self (g : Graph) (n : Node) : n ∈ akeys (addKey g n) := by
  unfold addKey
  by_cases h : (alookup g n).isSome
  · rw [if_pos h]
    exact (alookup_isSome_iff_mem g n).mp h
  · rw [if_neg h, akeys_append]
    exact List.mem_append.mpr (Or.inr (List.mem_singleton_self n))

theorem akeys_addKey_mono {g : Graph} {x : Node} (hx : x ∈ akeys g) (n : Node) :
    x ∈ akeys (addKey g n) := by
  unfold addKey
  by_cases h : (alookup g n).isSome
  · rw [if_pos h]; exact hx
  · rw [if_neg h, akeys_append]
    exact List.mem_append.mpr (Or.inl hx)

theorem addKey_wf {g : Graph} (hwf : WFGraph g) (n : Node) : WFGraph (addKey g n) := by
  unfold addKey
  by_cases h : (alookup g n).isSome
  · rw [if_pos h]; exact hwf
  · rw [if_neg h]
    constructor
    · rw [akeys_append]
      simp only [akeys, List.map_cons, List.map_nil]
      rw [List.nodup_append]
      refine ⟨hwf.1, List.nodup_singleton n, ?_⟩
      intro a ha1 ha2
      rw [List.mem_singleton] at ha2
      subst ha2
      exact h ((alookup_isSome_iff_mem g a).mpr ha1)
    · intro p hp q hq
      rcases List.mem_append.mp hp with h1 | h1
      · rw [akeys_append]
        exact List.mem_append.mpr (Or.inl (hwf.2 p h1 q hq))
      · rw [List.mem_singleton] at h1
        subst h1
        cases hq

theorem addGraph_wf {g : Graph} (hwf : WFGraph g) (n : Node) (to' : Option Node) :
    WFGraph (addGraph g n to') := by
  cases to' with
  | none => exact addKey_wf hwf n
  | some t =>
      have hwf1 : WFGraph (addKey (addKey g n) t) :=
        addKey_wf (addKey_wf hwf n) t
      have htk : t ∈ akeys (addKey (addKey g n) t) :=
        mem_akeys_addKey_self (addKey g n) t
      constructor
      · rw [addGraph, akeys_aupdate]
        exact hwf1.1
      · intro p hp q hq
        rw [addGraph] at hp
        rw [addGraph, akeys_aupdate]
        rcases mem_aupdate hp with h1 | ⟨v, hv, hpv⟩
        · exact hwf1.2 p h1 q hq
        · subst hpv
          simp only at hq
          rcases List.mem_append.mp hq with h2 | h2
          · exact hwf1.2 (n, v) (mem_of_alookup_eq_some hv) q h2
          · rw [List.mem_singleton] at h2
            subst h2
            exact htk

theorem add_wf {g : Graph} (hwf : WFGraph g) {n : Node} {to' : Option Node}
    {g' : Graph} (h : DAG.add g n to' = Except.ok g') : WFGraph g' := by
  unfold DAG.add at h
  by_cases hc : (addGraph g n to').length < (DAG.sort (addGraph g n to')).length
  · rw [if_pos hc] at h
    cases h
  · rw [if_neg hc] at h
    cases h
    exact addGraph_wf hwf n to'

theorem built_wf {g : Graph} (h : Built g) : WFGraph g := by
  induction h with
  | nil => exact ⟨List.nodup_nil, by intro p hp; cases hp⟩
  | step hb hadd ih => exact add_wf ih hadd

/-! ## Consequences of `sort_spec`: duplicates, cycles, completeness -/

theorem sort_nodup {g : Graph} (hwf : WFGraph g) : (DAG.sort g).Nodup :=
  (sort_spec g hwf).1

theorem sort_subset_keys {g : Graph} (hwf : WFGraph g) :
    ∀ n ∈ DAG.sort g, n ∈ akeys g :=
  (sort_spec g hwf).2.1

theorem sort_length_le {g : Graph} (hwf : WFGraph g) :
    (DAG.sort g).length ≤ g.length := by
  have hsp : List.Subperm (DAG.sort g) (akeys g) :=
    (sort_nodup hwf).subperm (sort_subset_keys hwf)
  have := hsp.length_le
  have hkl : (akeys g).length = g.length := List.length_map ..
  omega

/-- The guard `len(self.sort()) > len(self.graph)` in `DAG.add` can never be
true on a well-formed graph, so `add` always returns successfully — the
source's comparison is inverted and its cycle check is vacuous. -/
theorem add_never_fails {g : Graph} (hwf : WFGraph g) (n : Node)
    (to' : Option Node) : DAG.add g n to' = Except.ok (addGraph g n to') := by
  unfold DAG.add
  rw [if_neg]
  intro hc
  have := sort_length_le (addGraph_wf hwf n to')
  omega

theorem chain_idx_lt {g : Graph} (hwf : WFGraph g) :
    ∀ (l : List Node) (a b : Node), List.Chain (isEdge g) a l →
      l.getLast? = some b → b ∈ DAG.sort g →
      a ∈ DAG.sort g ∧ idxOf (DAG.sort g) a < idxOf (DAG.sort g) b := by
  intro l
  induction l with
  | nil =>
      intro a b _ hlast
      cases hlast
  | cons x xs ih =>
      intro a b hchain hlast hb
      rw [List.chain_cons] at hchain
      obtain ⟨hax, hchain'⟩ := hchain
      cases xs with
      | nil =>
          have hxb : x = b := by simpa using hlast
          subst hxb
          exact (sort_spec g hwf).2.2.2 a x hax hb
      | cons y ys =>
          have hlast' : (y :: ys).getLast? = some b := by
            simpa [List.getLast?_cons_cons] using hlast
          obtain ⟨hxs, hxidx⟩ := ih x b hchain' hlast' hb
          obtain ⟨has, haidx⟩ := (sort_spec g hwf).2.2.2 a x hax hxs
          exact ⟨has, Nat.lt_trans haidx hxidx⟩

theorem hasCycle_sort_missing {g : Graph} (hwf : WFGraph g) (hc : HasCycle g) :
    ∃ m, m ∈ akeys g ∧ m ∉ DAG.sort g := by
  obtain ⟨u, l, hchain⟩ := hc
  have hlast : (l ++ [u]).getLast? = some u := by
    simp
  have huK : u ∈ akeys g := by
    cases l with
    | nil =>
        rw [List.nil_append, List.chain_cons] at hchain
        exact isEdge_mem_keys_left hchain.1
    | cons x xs =>
        rw [List.cons_append, List.chain_cons] at hchain
        exact isEdge_mem_keys_left hchain.1
  refine ⟨u, huK, ?_⟩
  intro hu
  obtain ⟨-, hidx⟩ := chain_idx_lt hwf (l ++ [u]) u u hchain hlast hu
  exact Nat.lt_irrefl _ hidx

theorem hasCycle_sort_lt {g : Graph} (hwf : WFGraph g) (hc : HasCycle g) :
    (DAG.sort g).length < g.length := by
  obtain ⟨m, hmK, hms⟩ := hasCycle_sort_missing hwf hc
  have hsp : List.Subperm (DAG.sort g) (akeys g) :=
    (sort_nodup hwf).subperm (sort_subset_keys hwf)
  have hle := hsp.length_le
  have hkl : (akeys g).length = g.length := List.length_map ..
  by_contra hlt
  push_neg at hlt
  have heq : List.Perm (DAG.sort g) (akeys g) :=
    hsp.perm_of_length_le (by omega)
  exact hms (heq.mem_iff.mpr hmK)

theorem natSum_filter_split (l : List Node) (q : Node → Bool) (f : Node → Nat) :
    (l.map f).sum =
      ((l.filter q).map f).sum + ((l.filter (fun x => ! q x)).map f).sum := by
  induction l with
  | nil => simp
  | cons a t ih =>
      by_cases hq : q a
      · simp [List.filter_cons, hq, ih]
        omega
      · simp [List.filter_cons, hq, ih]
        omega

theorem pred_in_missing {g : Graph} (hwf : WFGraph g) {v : Node}
    (hv : v ∈ akeys g) (hvs : v ∉ DAG.sort g) :
    ∃ u, (u ∈ akeys g ∧ u ∉ DAG.sort g) ∧ isEdge g u v := by
  obtain ⟨hnd, hsub, hiff, -⟩ := sort_spec g hwf
  have hne : recvd g (DAG.sort g) v ≠ predCount g v :=
    fun hh => hvs ((hiff v hv).mpr hh)
  have hle : recvd g (DAG.sort g) v ≤ predCount g v :=
    recvd_le_predCount hwf.1 hnd hsub v
  have hkeys : recvd g (akeys g) v = predCount g v :=
    recvd_keys_eq_predCount g hwf.1 v
  have hsplit : recvd g (akeys g) v =
      recvd g ((akeys g).filter (fun x => decide (x ∈ DAG.sort g))) v +
      recvd g ((akeys g).filter (fun x => ! decide (x ∈ DAG.sort g))) v :=
    natSum_filter_split (akeys g) _ _
  have hfnd : ((akeys g).filter (fun x => decide (x ∈ DAG.sort g))).Nodup :=
    hwf.1.sublist ((akeys g).filter_sublist)
  have hfperm : List.Perm ((akeys g).filter (fun x => decide (x ∈ DAG.sort g)))
      (DAG.sort g) := by
    apply List.Subperm.antisymm
    · apply hfnd.subperm
      intro x hx
      rcases List.mem_filter.mp hx with ⟨-, hx2⟩
      exact of_decide_eq_true hx2
    · apply hnd.subperm
      intro x hx
      exact List.mem_filter.mpr ⟨hsub x hx, decide_eq_true hx⟩
  have h1 : recvd g ((akeys g).filter (fun x => decide (x ∈ DAG.sort g))) v =
      recvd g (DAG.sort g) v := recvd_perm g v hfperm
  have hpos : 0 < recvd g ((akeys g).filter (fun x => ! decide (x ∈ DAG.sort g))) v := by
    omega
  obtain ⟨u, hu, hcu⟩ := natSum_pos_exists hpos
  rcases List.mem_filter.mp hu with ⟨huK, hu2⟩
  refine ⟨u, ⟨huK, ?_⟩, isEdge_iff_count_pos.mpr hcu⟩
  intro hus
  simp [hus] at hu2

def iterChain (f : Node → Node) (x : Node) : Nat → List Node
  | 0 => []
  | n + 1 => f^[n] x :: iterChain f x n

theorem iterChain_chain {g : Graph} (f : Node → Node) (x : Node) :
    ∀ n : Nat, (∀ k, k < n → isEdge g (f^[k + 1] x) (f^[k] x)) →
      List.Chain (isEdge g) (f^[n] x) (iterChain f x n) := by
  intro n
  induction n with
  | zero => intro _; exact List.Chain.nil
  | succ n ih =>
      intro hstep
      rw [iterChain, List.chain_cons]
      exact ⟨hstep n (Nat.lt_succ_self n),
        ih (fun k hk => hstep k (Nat.lt_trans hk (Nat.lt_succ_self n)))⟩

theorem iterChain_concat (f : Node → Node) (x : Node) :
    ∀ n : Nat, 1 ≤ n → ∃ l, iterChain f x n = l ++ [x] := by
  intro n
  induction n with
  | zero => intro h; cases h
  | succ n ih =>
      intro _
      cases n with
      | zero =>
          refine ⟨[], ?_⟩
          simp [iterChain]
      | succ m =>
          obtain ⟨l, hl⟩ := ih (Nat.succ_le_succ (Nat.zero_le m))
          exact ⟨f^[m + 1] x :: l, by rw [iterChain, hl, List.cons_append]⟩

theorem cycle_of_iterate_eq (g : Graph) (f : Node → Node) (m : Node)
    (hedge : ∀ k, isEdge g (f^[k + 1] m) (f^[k] m))
    (i j : Nat) (hij : i < j) (heq : f^[i] m = f^[j] m) : HasCycle g := by
  set x := f^[i] m with hx
  set n := j - i with hn
  have hn1 : 1 ≤ n := by omega
  have hiter_x : ∀ k, f^[k] x = f^[k + i] m := by
    intro k
    rw [hx]
    exact (Function.iterate_add_apply f k i m).symm
  have hcyc_x : f^[n] x = x := by
    rw [hiter_x n]
    have hni : n + i = j := by omega
    rw [hni, hx]
    exact heq.symm
  have hsteps : ∀ k, k < n → isEdge g (f^[k + 1] x) (f^[k] x) := by
    intro k _
    rw [hiter_x k, hiter_x (k + 1)]
    have hki : k + 1 + i = (k + i) + 1 := by omega
    rw [hki]
    exact hedge (k + i)
  have hchain := iterChain_chain f x n hsteps
  rw [hcyc_x] at hchain
  obtain ⟨l, hl⟩ := iterChain_concat f x n hn1
  rw [hl] at hchain
  exact ⟨x, l, hchain⟩

theorem acyclic_sort_complete {g : Graph} (hwf : WFGraph g)
    (hna : ¬ HasCycle g) : ∀ n ∈ akeys g, n ∈ DAG.sort g := by
  by_contra h
  push_neg at h
  obtain ⟨m, hmK, hms⟩ := h
  classical
  have hex : ∀ v, (v ∈ akeys g ∧ v ∉ DAG.sort g) →
      ∃ u, (u ∈ akeys g ∧ u ∉ DAG.sort g) ∧ isEdge g u v :=
    fun v hv => pred_in_missing hwf hv.1 hv.2
  set f : Node → Node := fun v =>
    if h : v ∈ akeys g ∧ v ∉ DAG.sort g then (hex v h).choose else v with hfdef
  have hf : ∀ v, (v ∈ akeys g ∧ v ∉ DAG.sort g) →
      ((f v ∈ akeys g ∧ f v ∉ DAG.sort g) ∧ isEdge g (f v) v) := by
    intro v hv
    rw [hfdef]
    simp only [dif_pos hv]
    exact ⟨(hex v hv).choose_spec.1, (hex v hv).choose_spec.2⟩
  have hiter : ∀ k, (f^[k] m ∈ akeys g ∧ f^[k] m ∉ DAG.sort g) := by
    intro k
    induction k with
    | zero => simpa using ⟨hmK, hms⟩
    | succ k ih =>
        rw [Function.iterate_succ_apply']
        exact (hf _ ih).1
  have hedge : ∀ k, isEdge g (f^[k + 1] m) (f^[k] m) := by
    intro k
    rw [Function.iterate_succ_apply']
    exact (hf _ (hiter k)).2
  have hmaps : ∀ k ∈ Finset.range ((akeys g).length + 1),
      f^[k] m ∈ (akeys g).toFinset := by
    intro k _
    rw [List.mem_toFinset]
    exact (hiter k).1
  have hcard : (akeys g).toFinset.card < (Finset.range ((akeys g).length + 1)).card := by
    rw [Finset.card_range]
    have := (akeys g).toFinset_card_le
    omega
  obtain ⟨i, hi, j, hj, hij, hfij⟩ :=
    Finset.exists_ne_map_eq_of_card_lt_of_maps_to hcard hmaps
  rcases Nat.lt_or_ge i j with hlt | hge
  · exact absurd (cycle_of_iterate_eq g f m hedge i j hlt hfij) hna
  · have hlt : j < i := by omega
    exact absurd (cycle_of_iterate_eq g f m hedge j i hlt hfij.symm) hna

theorem acyclic_sort_perm {g : Graph} (hwf : WFGraph g) (hna : ¬ HasCycle g) :
    List.Perm (DAG.sort g) (akeys g) :=
  List.Subperm.antisymm
    ((sort_nodup hwf).subperm (sort_subset_keys hwf))
    (hwf.1.subperm (fun x hx => acyclic_sort_complete hwf hna x hx))

theorem acyclic_sort_edge_idx {g : Graph} (hwf : WFGraph g) (hna : ¬ HasCycle g)
    {u v : Node} (he : isEdge g u v) :
    idxOf (DAG.sort g) u < idxOf (DAG.sort g) v := by
  have hvK : v ∈ akeys g := isEdge_mem_keys_right hwf he
  have hvs : v ∈ DAG.sort g := acyclic_sort_complete hwf hna v hvK
  exact ((sort_spec g hwf).2.2.2 u v he hvs).2

theorem built_g01 : Built [(0, [1]), (1, [])] :=
  @Built.step [] 0 (some 1) [(0, [1]), (1, [])] Built.nil rfl

theorem built_cycle01 : Built [(0, [1]), (1, [0])] :=
  @Built.step [(0, [1]), (1, [])] 1 (some 0) [(0, [1]), (1, [0])] built_g01 rfl

/-- The cyclic 2-node graph produced by `add(0, to=1); add(1, to=0)`. -/
theorem cycle01_hasCycle : HasCycle [(0, [1]), (1, [0])] :=
  ⟨0, [1], List.Chain.cons (by decide) (List.Chain.cons (by decide) List.Chain.nil)⟩

/-! ## Claim theorems: the `DAG` class -/

/-- C1 (code evaluation at the failing input): inserting the edge `1 → 0`
into the graph `{0: [1], 1: []}` closes the cycle `0 → 1 → 0`, yet `DAG.add`
returns successfully instead of raising — the guard
`len(self.sort()) > len(self.graph)` compares in the wrong direction and can
never be true, so no cycle is ever rejected. -/
theorem spec_C1_cycle_insertion_not_rejected :
    DAG.add [(0, [1]), (1, [])] 1 (some 0) = Except.ok [(0, [1]), (1, [0])]
    ∧ HasCycle [(0, [1]), (1, [0])] :=
  ⟨rfl, cycle01_hasCycle⟩

/-- C3 (code evaluation at the failing input): a sequence of `DAG.add` calls,
each returning successfully, produces a graph containing a directed cycle —
the claimed invariant "no directed cycle after any successful edge insertion"
is violated by the code because its cycle check is inverted. -/
theorem spec_C3_invariant_violated :
    Built [(0, [1]), (1, [0])] ∧ HasCycle [(0, [1]), (1, [0])] :=
  ⟨built_cycle01, cycle01_hasCycle⟩

/-- C2: on an acyclic graph built by `DAG.add`, `DAG.sort` returns a
permutation of all nodes in which every edge's source precedes its target. -/
theorem spec_C2_sort_topological (g : Graph) (hb : Built g) (hna : ¬ HasCycle g) :
    List.Perm (DAG.sort g) (akeys g)
    ∧ ∀ u v, isEdge g u v → idxOf (DAG.sort g) u < idxOf (DAG.sort g) v :=
  ⟨acyclic_sort_perm (built_wf hb) hna,
   fun u v he => acyclic_sort_edge_idx (built_wf hb) hna he⟩

theorem spec_C2_witness :
    List.Perm (DAG.sort [(0, [1]), (1, [])]) (akeys [(0, [1]), (1, [])])
    ∧ ∀ u v, isEdge [(0, [1]), (1, [])] u v →
        idxOf (DAG.sort [(0, [1]), (1, [])]) u <
          idxOf (DAG.sort [(0, [1]), (1, [])]) v := by
  apply spec_C2_sort_topological
  · exact built_g01
  · intro hc
    exact absurd (hasCycle_sort_lt (built_wf built_g01) hc) (by decide)

/-- C4: on a graph built by `DAG.add` whose edge set contains a directed
cycle, `DAG.sort` returns strictly fewer elements than the graph has nodes. -/
theorem spec_C4_cycle_sort_short (g : Graph) (hb : Built g) (hc : HasCycle g) :
    (DAG.sort g).length < g.length :=
  hasCycle_sort_lt (built_wf hb) hc

theorem spec_C4_witness :
    (DAG.sort [(0, [1]), (1, [0])]).length < ([(0, [1]), (1, [0])] : Graph).length :=
  spec_C4_cycle_sort_short [(0, [1]), (1, [0])] built_cycle01 cycle01_hasCycle

/-- C5: on every graph built by `DAG.add`, cyclic or not, `DAG.sort` emits no
node more than once, hence never more elements than the graph has nodes. -/
theorem spec_C5_sort_no_duplicates (g : Graph) (hb : Built g) :
    (DAG.sort g).Nodup ∧ (DAG.sort g).length ≤ g.length :=
  ⟨sort_nodup (built_wf hb), sort_length_le (built_wf hb)⟩

theorem spec_C5_witness :
    (DAG.sort [(0, [1]), (1, [0])]).Nodup
    ∧ (DAG.sort [(0, [1]), (1, [0])]).length ≤ ([(0, [1]), (1, [0])] : Graph).length :=
  spec_C5_sort_no_duplicates [(0, [1]), (1, [0])] built_cycle01

/-- C9: on every graph built by `DAG.add`, `in_degrees` assigns to every node
of the graph exactly its number of direct predecessors, counted as
occurrences of the node in successor lists. -/
theorem spec_C9_in_degrees_counts (g : Graph) (hb : Built g) :
    ∀ n ∈ akeys g, alookup (DAG.in_degrees g) n = some ((predCount g n : Nat) : Int) := by
  intro n hn
  rw [(in_degrees_spec g).1 n, if_pos (Or.inl hn)]

theorem spec_C9_witness :
    0 ∈ akeys [(0, [1]), (1, [0])]
    ∧ alookup (DAG.in_degrees [(0, [1]), (1, [0])]) 0 =
        some ((predCount [(0, [1]), (1, [0])] 0 : Nat) : Int) :=
  ⟨by decide,
   spec_C9_in_degrees_counts [(0, [1]), (1, [0])] built_cycle01 0 (by decide)⟩

/-! ## Claim theorems: the `Pipeline` class -/

/-- C10: `Pipeline.run`, as a state transformer on the owned `DAG` object,
never changes `self.graph` — only `self.degrees` is written (by the `sort`
call); the execution loop merely reads the adjacency mapping, whether it
completes or aborts on a failing unit of work. -/
theorem spec_C10_run_preserves_graph {E Val : Type} (st : DAGState)
    (works : Works E Val) : (Pipeline.runS st works).1.graph = st.graph := rfl

/-- Registration of the linear chain `a → b → c`:
`@pipeline.task() f_a; @pipeline.task(depends_on=f_a) f_b;
@pipeline.task(depends_on=f_b) f_c`. -/
def registerChain (a b c : Node) : Except Unit Graph := do
  let g1 ← Pipeline.task [] a none
  let g2 ← Pipeline.task g1 b (some a)
  Pipeline.task g2 c (some b)

/-- C7: registering a linear chain of three distinct units of work produces
the expected adjacency mapping, and `run()` on it returns a table in which
each work's output is recorded under its node, the root `a` having been
invoked with no input and each successor with its predecessor's output, so
that the entry of `c` is `workC (workB (workA ()))`. -/
theorem spec_C7_linear_chain {E Val : Type} (a b c : Node) (works : Works E Val)
    (hab : a ≠ b) (hac : a ≠ c) (hbc : b ≠ c) (va vb vc : Val)
    (hwa : works a none = Except.ok va)
    (hwb : works b (some va) = Except.ok vb)
    (hwc : works c (some vb) = Except.ok vc) :
    registerChain a b c = Except.ok [(a, [b]), (b, [c]), (c, [])]
    ∧ Pipeline.run [(a, [b]), (b, [c]), (c, [])] works =
        Except.ok [(a, va), (b, vb), (c, vc)]
    ∧ alookup [(a, va), (b, vb), (c, vc)] c = some vc := by
  have hba : b ≠ a := hab.symm
  have hca : c ≠ a := hac.symm
  have hcb : c ≠ b := hbc.symm
  refine ⟨?_, ?_, ?_⟩
  · simp [registerChain, Pipeline.task, DAG.add, addGraph, addKey, aupdate, alookup,
      DAG.sort, sortImpl, sortLoopF, seedQueue, DAG.in_degrees, degStep, bumpDeg,
      posSum, processSuccs, succStep, decDeg, succsOf, akeys,
      hab, hac, hbc, hba, hca, hcb, Bind.bind, Except.bind]
  · simp [Pipeline.run, runSched, runStep, scanPreds, dinsert, alookup, aupdate,
      DAG.sort, sortImpl, sortLoopF, seedQueue, DAG.in_degrees, degStep, bumpDeg,
      posSum, processSuccs, succStep, decDeg, succsOf, akeys,
      hab, hac, hbc, hba, hca, hcb, hwa, hwb, hwc]
  · simp [alookup, hac, hbc]

theorem spec_C7_witness :
    registerChain 0 1 2 = Except.ok [(0, [1]), (1, [2]), (2, [])]
    ∧ Pipeline.run [(0, [1]), (1, [2]), (2, [])]
        (fun n x => (Except.ok (10 * x.getD 7 + n) : Except Unit Nat)) =
        Except.ok [(0, 70), (1, 701), (2, 7012)]
    ∧ alookup [(0, (70 : Nat)), (1, 701), (2, 7012)] 2 = some 7012 :=
  spec_C7_linear_chain 0 1 2 _ (by decide) (by decide) (by decide)
    70 701 7012 rfl rfl rfl

/-- Registration of the diamond `a → b, a → c, b → d, c → d`, with `b`
registered before `c` (and `d`'s two dependencies declared in that order). -/
def registerDiamond (a b c d : Node) : Except Unit Graph := do
  let g1 ← Pipeline.task [] a none
  let g2 ← Pipeline.task g1 b (some a)
  let g3 ← Pipeline.task g2 c (some a)
  let g4 ← Pipeline.task g3 d (some b)
  Pipeline.task g4 d (some c)

/-- C6: in the diamond with `b` registered before `c`, the scan of
`run()` matches `d` first against `b` and then against `c`, each time calling
`d`'s work on that predecessor's recorded output and overwriting the entry,
so the results table records for `d` the output of its work applied to `c`'s
output — the predecessor whose edge is scanned last wins. -/
theorem spec_C6_diamond_last_pred_wins {E Val : Type} (a b c d : Node)
    (works : Works E Val)
    (hab : a ≠ b) (hac : a ≠ c) (had : a ≠ d) (hbc : b ≠ c) (hbd : b ≠ d)
    (hcd : c ≠ d) (va vb vc vdb vdc : Val)
    (hwa : works a none = Except.ok va)
    (hwb : works b (some va) = Except.ok vb)
    (hwc : works c (some va) = Except.ok vc)
    (hwdb : works d (some vb) = Except.ok vdb)
    (hwdc : works d (some vc) = Except.ok vdc) :
    registerDiamond a b c d =
      Except.ok [(a, [b, c]), (b, [d]), (c, [d]), (d, [])]
    ∧ Pipeline.run [(a, [b, c]), (b, [d]), (c, [d]), (d, [])] works =
        Except.ok [(a, va), (b, vb), (c, vc), (d, vdc)]
    ∧ alookup [(a, va), (b, vb), (c, vc), (d, vdc)] d = some vdc := by
  have hba : b ≠ a := hab.symm
  have hca : c ≠ a := hac.symm
  have hda : d ≠ a := had.symm
  have hcb : c ≠ b := hbc.symm
  have hdb : d ≠ b := hbd.symm
  have hdc : d ≠ c := hcd.symm
  refine ⟨?_, ?_, ?_⟩
  · simp [registerDiamond, Pipeline.task, DAG.add, addGraph, addKey, aupdate,
      alookup, DAG.sort, sortImpl, sortLoopF, seedQueue, DAG.in_degrees, degStep,
      bumpDeg, posSum, processSuccs, succStep, decDeg, succsOf, akeys,
      hab, hac, had, hbc, hbd, hcd, hba, hca, hda, hcb, hdb, hdc,
      Bind.bind, Except.bind]
  · simp [Pipeline.run, runSched, runStep, scanPreds, dinsert, alookup, aupdate,
      DAG.sort, sortImpl, sortLoopF, seedQueue, DAG.in_degrees, degStep, bumpDeg,
      posSum, processSuccs, succStep, decDeg, succsOf, akeys,
      hab, hac, had, hbc, hbd, hcd, hba, hca, hda, hcb, hdb, hdc,
      hwa, hwb, hwc, hwdb, hwdc]
  · simp [alookup, had, hbd, hcd]

theorem spec_C6_witness :
    registerDiamond 0 1 2 3 =
      Except.ok [(0, [1, 2]), (1, [3]), (2, [3]), (3, [])]
    ∧ Pipeline.run [(0, [1, 2]), (1, [3]), (2, [3]), (3, [])]
        (fun n x => (Except.ok (10 * x.getD 7 + n) : Except Unit Nat)) =
        Except.ok [(0, 70), (1, 701), (2, 702), (3, 7023)]
    ∧ alookup [(0, (70 : Nat)), (1, 701), (2, 702), (3, 7023)] 3 = some 7023 :=
  spec_C6_diamond_last_pred_wins 0 1 2 3 _
    (by decide) (by decide) (by decide) (by decide) (by decide) (by decide)
    70 701 702 7013 7023 rfl rfl rfl rfl rfl

theorem runSched_append {E Val : Type} (works : Works E Val) (g : Graph)
    (l₁ l₂ : List Node) (c : List (Node × Val)) :
    runSched works g (l₁ ++ l₂) c =
      match runSched works g l₁ c with
      | Except.error e => Except.error e
      | Except.ok c' => runSched works g l₂ c' := by
  induction l₁ generalizing c with
  | nil => simp [runSched]
  | cons t rest ih =>
      cases h : runStep works g c t with
      | error e => simp [runSched, h]
      | ok c1 => simp [runSched, h, ih]

theorem scanPreds_congr {E Val : Type} {works works' : Works E Val} {task : Node}
    (h : works' task = works task) :
    ∀ (l : Graph) (c : List (Node × Val)),
      scanPreds works' task l c = scanPreds works task l c := by
  intro l
  induction l with
  | nil => intro c; rfl
  | cons p rest ih =>
      intro c
      obtain ⟨node, values⟩ := p
      simp only [scanPreds, h, ih]

theorem runStep_congr {E Val : Type} {works works' : Works E Val} {task : Node}
    (h : works' task = works task) (g : Graph) (c : List (Node × Val)) :
    runStep works' g c task = runStep works g c task := by
  unfold runStep
  rw [scanPreds_congr h g c, h]

theorem runSched_congr {E Val : Type} {works works' : Works E Val} (g : Graph) :
    ∀ (l : List Node) (c : List (Node × Val)),
      (∀ n ∈ l, works' n = works n) →
      runSched works' g l c = runSched works g l c := by
  intro l
  induction l with
  | nil => intro c _; rfl
  | cons t rest ih =>
      intro c hagr
      have ht : works' t = works t := hagr t (List.mem_cons_self t rest)
      have hs := runStep_congr ht g c
      cases h2 : runStep works g c t with
      | error e => simp only [runSched, hs, h2]
      | ok c1 =>
          simp only [runSched, hs, h2]
          exact ih c1 (fun n hn => hagr n (List.mem_cons_of_mem t hn))

/-- C8: when the schedule splits as `pre ++ t :: post` and the work of `t`
raises after the prefix completed with table `c₀`, `run()` aborts with that
exception propagated unmodified together with the table as written up to the
failure; the result is the same for any works that agree on the prefix and on
`t` — in particular the units of work scheduled after `t` are never invoked
and contribute no table entries. -/
theorem spec_C8_work_failure_aborts {E Val : Type} (g : Graph)
    (works works' : Works E Val) (pre post : List Node) (t : Node)
    (c₀ c₁ : List (Node × Val)) (e : E)
    (hs : DAG.sort g = pre ++ t :: post)
    (hpre : runSched works g pre [] = Except.ok c₀)
    (hstep : runStep works g c₀ t = Except.error (RunErr.workFail e, c₁))
    (hagree : ∀ n ∈ pre, works' n = works n) (hat : works' t = works t) :
    Pipeline.run g works' = Except.error (RunErr.workFail e, c₁) := by
  calc Pipeline.run g works'
      = runSched works' g (pre ++ t :: post) [] := by rw [Pipeline.run, hs]
    _ = runSched works' g (t :: post) c₀ := by
        rw [runSched_append, runSched_congr g pre [] hagree, hpre]
    _ = Except.error (RunErr.workFail e, c₁) := by
        simp only [runSched, runStep_congr hat g c₀, hstep]

theorem spec_C8_witness :
    Pipeline.run [(0, [1]), (1, [2]), (2, [])]
      (fun n _ => if n = 0 then (Except.ok 4 : Except Nat Nat)
        else if n = 2 then Except.ok 99 else Except.error 7) =
      Except.error (RunErr.workFail 7, [(0, 4)]) :=
  spec_C8_work_failure_aborts [(0, [1]), (1, [2]), (2, [])]
    (fun n _ => if n = 0 then Except.ok 4 else Except.error 7)
    (fun n _ => if n = 0 then (Except.ok 4 : Except Nat Nat)
      else if n = 2 then Except.ok 99 else Except.error 7)
    [0] [2] 1 [(0, 4)] [(0, 4)] 7 rfl rfl rfl
    (by
      intro n hn
      rw [List.mem_singleton] at hn
      subst hn
      rfl)
    rfl
